import Mathlib

/-!
Shallow embedding of the Bundlee archive codec and lookup engine
(src/mod.ts, class Bundlee) together with a model of the directory
trees it walks.

Modelling conventions:
  - Bytes are values of type Fin 256; file contents are byte lists.
  - Filesystem paths are lists of path segments (POSIX, forward slashes);
    joining paths is list append, the textual form is the slash-separated
    interleaving.  The replaceAll of backslashes in bundleFiles is the
    identity on such paths and is therefore dropped.
  - A JavaScript plain object (Record string Metadata) is an association
    list with unique keys in insertion order; property read is recLookup,
    property assignment is recSet (replace in place, or append).
  - The platform primitives used by src/mod.ts but external to the
    repository (CompressionStream and DecompressionStream with gzip,
    the base64 encode and decode re-exported by deps.ts, TextEncoder and
    TextDecoder) are a parameter structure Codec; the spec fixes only
    their round-trip contracts (spec section 4.3), captured by
    Codec.Lawful.  The contentType table of deps.ts is likewise a
    parameter.
  - Effectful operations are modelled by explicit state passing on the
    holder state and, for restore, by an explicit list of filesystem
    effects.
-/

/-- One bundled file, as stored in the archive JSON (interface Metadata
in src/mod.ts): encoded content, MIME type, epoch milliseconds. -/
structure Metadata where
  content : String
  contentType : String
  lastModified : Nat
deriving DecidableEq, Repr

/-- A JavaScript record from string keys to Metadata, as an association
list in insertion order with unique keys. -/
abbrev Record := List (String × Metadata)

/-- Property read on a record: value at the first (unique) matching key. -/
def recLookup : Record → String → Option Metadata
  | [], _ => none
  | kv :: rest, k => if kv.1 = k then some kv.2 else recLookup rest k

/-- Property assignment on a record: replaces the value at an existing
key in place, otherwise appends the new pair (JavaScript semantics). -/
def recSet : Record → String → Metadata → Record
  | [], k, v => [(k, v)]
  | kv :: rest, k, v => if kv.1 = k then (k, v) :: rest else kv :: recSet rest k v

/-- Keys of a record in insertion order (Object.keys). -/
def recKeys (r : Record) : List String := r.map (fun kv => kv.1)

/-- The failure kinds surfaced by src/mod.ts.  The source throws Error
values with fixed messages: notLoaded is No bundle loaded., notFound is
Requested file not found in bundle., noInputFiles is No input files
found, fetchFailed is Failed to fetch bundle from a url, ioError covers
errors thrown by Deno filesystem calls, decodeFailed covers failures of
the base64 or gzip read direction. -/
inductive BundleeError where
  | notLoaded
  | notFound
  | noInputFiles
  | fetchFailed
  | decodeFailed
  | ioError (msg : String)
deriving DecidableEq, Repr

/-- Modelled from the spec: the platform codec primitives used by
src/mod.ts are external to the repository (gzip streams, the base64
functions re-exported by the missing deps.ts, TextEncoder and
TextDecoder, and the contentType table).  Spec section 4.3 constrains
them only through their round-trip contracts, stated in Codec.Lawful
below.  utf8decode is total because TextDecoder without the fatal flag
never throws (it substitutes replacement characters). -/
structure Codec where
  gzip : List (Fin 256) → List (Fin 256)
  gunzip : List (Fin 256) → Option (List (Fin 256))
  b64encode : List (Fin 256) → String
  b64decode : String → Option (List (Fin 256))
  utf8encode : String → List (Fin 256)
  utf8decode : List (Fin 256) → String
  contentTypeOf : String → Option String

/-- Modelled from the spec: the round-trip contracts of the platform
primitives (spec section 4.3): decompression inverts compression,
base64 decoding inverts encoding, and UTF-8 decoding inverts encoding
of any text. -/
def Codec.Lawful (c : Codec) : Prop :=
  (∀ bs, c.gunzip (c.gzip bs) = some bs) ∧
  (∀ bs, c.b64decode (c.b64encode bs) = some bs) ∧
  (∀ s, c.utf8decode (c.utf8encode s) = s)

/-- Index of the last occurrence of a character in a character list,
if any. -/
def lastIdxOf (target : Char) : List Char → Option Nat
  | [] => none
  | ch :: rest =>
    match lastIdxOf target rest with
    | some i => some (i + 1)
    | none => if ch = target then some 0 else none

/-- The characters of a path string after the last slash (its
basename). -/
def basenameChars (s : String) : List Char :=
  match lastIdxOf '/' s.data with
  | none => s.data
  | some i => s.data.drop (i + 1)

/-- The ext field of the std path parse function (Node semantics, which
the Deno std path module mirrors): empty when the basename has no dot,
when its last dot is the leading character, or when the basename is the
literal dot-dot; otherwise the substring from the last dot (inclusive)
to the end. -/
def parseExt (s : String) : String :=
  let base := basenameChars s
  match lastIdxOf '.' base with
  | none => ""
  | some 0 => ""
  | some d => if base = ['.', '.'] then "" else String.mk (base.drop d)

/-- The extension guard of recursiveReaddir in src/mod.ts: with no
filter every file passes; with a filter the parsed extension must be a
member (exact string comparison, Array.includes). -/
def extOk (extensionFilter : Option (List String)) (name : String) : Bool :=
  match extensionFilter with
  | none => true
  | some l => decide (parseExt name ∈ l)

/-- getContentType in src/mod.ts: the contentType table applied to the
parsed extension of the file path, with the octet-stream fallback. -/
def getContentType (c : Codec) (filePath : String) : String :=
  (c.contentTypeOf (parseExt filePath)).getD "application/octet-stream"

/-- A node of a directory tree as observed through Deno.readDir: a
regular file (with content bytes and optional mtime), a readable
subdirectory, a symbolic link or special file (for which both isFile
and isDirectory are false), or a directory whose read fails (for
example with a permission error). -/
inductive FsEntry where
  | file (name : String) (content : List (Fin 256)) (mtime : Option Nat)
  | dir (name : String) (entries : List FsEntry)
  | symlink (name : String)
  | special (name : String)
  | deniedDir (name : String)
deriving Repr

/-- One file discovered by the walker: its full path (segments), its
content bytes and its optional mtime.  The source walker returns only
path strings and bundleFiles re-reads the file; the model carries the
data the later read would observe. -/
structure FileRec where
  path : List String
  content : List (Fin 256)
  mtime : Option Nat
deriving DecidableEq, Repr

/-- recursiveReaddir of src/mod.ts over a modelled directory listing:
depth-first, in listing order; directories recurse, regular files are
kept when the extension guard passes, entries that are neither regular
files nor directories fall through both branches and are skipped, and a
directory whose read fails propagates the thrown error. -/
def recursiveReaddir (extensionFilter : Option (List String)) :
    List String → List FsEntry → Except BundleeError (List FileRec)
  | _, [] => .ok []
  | path, FsEntry.file name content mtime :: rest =>
    match recursiveReaddir extensionFilter path rest with
    | .error e => .error e
    | .ok fs =>
      .ok ((if extOk extensionFilter name then [⟨path ++ [name], content, mtime⟩] else []) ++ fs)
  | path, FsEntry.dir name entries :: rest =>
    match recursiveReaddir extensionFilter (path ++ [name]) entries with
    | .error e => .error e
    | .ok here =>
      match recursiveReaddir extensionFilter path rest with
      | .error e => .error e
      | .ok fs => .ok (here ++ fs)
  | path, FsEntry.symlink _ :: rest => recursiveReaddir extensionFilter path rest
  | path, FsEntry.special _ :: rest => recursiveReaddir extensionFilter path rest
  | _, FsEntry.deniedDir _ :: _ => .error (.ioError "PermissionDenied")

/-- Pure collector used to characterise the walker: the regular files
of the tree, in walker order, whose names pass the extension guard;
entries that are neither regular files nor directories contribute
nothing. -/
def collectFiles (extensionFilter : Option (List String)) :
    List String → List FsEntry → List FileRec
  | _, [] => []
  | path, FsEntry.file name content mtime :: rest =>
    (if extOk extensionFilter name then [⟨path ++ [name], content, mtime⟩] else []) ++
      collectFiles extensionFilter path rest
  | path, FsEntry.dir name entries :: rest =>
    collectFiles extensionFilter (path ++ [name]) entries ++
      collectFiles extensionFilter path rest
  | path, FsEntry.symlink _ :: rest => collectFiles extensionFilter path rest
  | path, FsEntry.special _ :: rest => collectFiles extensionFilter path rest
  | path, FsEntry.deniedDir _ :: rest => collectFiles extensionFilter path rest

/-- Whether a listing contains, at any depth reachable through readable
directories or not, a directory whose read fails. -/
def hasDenied : List FsEntry → Bool
  | [] => false
  | FsEntry.dir _ entries :: rest => hasDenied entries || hasDenied rest
  | FsEntry.deniedDir _ :: _ => true
  | _ :: rest => hasDenied rest

/-- The holder state of one Bundlee instance: the private fields
loadedBundle and cache of class Bundlee in src/mod.ts. -/
structure Bundlee where
  loadedBundle : Option Record
  cache : Record
deriving DecidableEq, Repr

/-- The textual form of a segment path. -/
def pathString (segs : List String) : String := String.intercalate "/" segs

/-- bundleFiles of src/mod.ts: for each discovered file, gzip then
base64-encode its bytes, resolve the content type from the full file
path, read the mtime (null becomes 0 through the or-zero guard), and
assign the entry at the key relative to basePath. -/
def bundleFiles (c : Codec) (basePath : List String) (fileList : List FileRec) : Record :=
  fileList.foldl
    (fun result f =>
      recSet result (pathString (f.path.drop basePath.length))
        { content := c.b64encode (c.gzip f.content)
          contentType := getContentType c (pathString f.path)
          lastModified := f.mtime.getD 0 })
    []

/-- Bundlee.bundle of src/mod.ts: walk basePath joined with path, fail
with the no-input-files error when the list is empty, else bundle. -/
def Bundlee.bundle (c : Codec) (basePath path : List String) (rootEntries : List FsEntry)
    (exts : Option (List String)) : Except BundleeError Record :=
  match recursiveReaddir exts (basePath ++ path) rootEntries with
  | .error e => .error e
  | .ok fileList =>
    if fileList.length = 0 then .error .noInputFiles
    else .ok (bundleFiles c basePath fileList)

/-- Bundlee.has of src/mod.ts: true exactly when a bundle is loaded and
the key reads to a defined value. -/
def Bundlee.has (b : Bundlee) (filePath : String) : Bool :=
  match b.loadedBundle with
  | some lb => (recLookup lb filePath).isSome
  | none => false

/-- The read direction of the entry codec as performed inside
Bundlee.get: base64-decode the stored content, gunzip it, decode the
bytes as text, and keep contentType and lastModified unchanged. -/
def decodeEntry (c : Codec) (md : Metadata) : Option Metadata :=
  match c.b64decode md.content with
  | none => none
  | some compressed =>
    match c.gunzip compressed with
    | none => none
    | some bytes => some ⟨c.utf8decode bytes, md.contentType, md.lastModified⟩

/-- Bundlee.get of src/mod.ts: fail when no bundle is loaded; return a
cached decode when present (the cached object is always truthy); else
look the key up in the loaded bundle, failing when absent; else decode
and memoize.  The pair carries the result and the holder state after
the call. -/
def Bundlee.get (c : Codec) (b : Bundlee) (filePath : String) :
    Except BundleeError Metadata × Bundlee :=
  match b.loadedBundle with
  | none => (.error .notLoaded, b)
  | some lb =>
    match recLookup b.cache filePath with
    | some m => (.ok m, b)
    | none =>
      match recLookup lb filePath with
      | none => (.error .notFound, b)
      | some md =>
        match decodeEntry c md with
        | none => (.error .decodeFailed, b)
        | some dm => (.ok dm, { b with cache := recSet b.cache filePath dm })

/-- Bundlee.importRemote of src/mod.ts: a non-ok response status throws;
otherwise the parsed body replaces loadedBundle.  The fetch transport
itself is external; the model receives its status and parsed body. -/
def Bundlee.importRemote (b : Bundlee) (statusOk : Bool) (parsed : Record) :
    Except BundleeError Bundlee :=
  if statusOk then .ok { b with loadedBundle := some parsed } else .error .fetchFailed

/-- Bundlee.importLocal of src/mod.ts: the parsed file content replaces
loadedBundle.  Reading and JSON-parsing are external; the model
receives the parsed value. -/
def Bundlee.importLocal (b : Bundlee) (parsed : Record) : Bundlee :=
  { b with loadedBundle := some parsed }

/-- Bundlee.importAsModule of src/mod.ts: the imported JSON module
default export replaces loadedBundle. -/
def Bundlee.importAsModule (b : Bundlee) (parsed : Record) : Bundlee :=
  { b with loadedBundle := some parsed }

/-- The import strategy tag of src/mod.ts (import, fetch or local). -/
inductive ImportType where
  | module
  | fetch
  | local
deriving DecidableEq, Repr

/-- The import dispatcher of src/mod.ts, covering the three load
strategies. -/
def Bundlee.importBundle (b : Bundlee) (t : ImportType) (statusOk : Bool) (parsed : Record) :
    Except BundleeError Bundlee :=
  match t with
  | .fetch => b.importRemote statusOk parsed
  | .module => .ok (b.importAsModule parsed)
  | .local => .ok (b.importLocal parsed)

/-- The static factory Bundlee.load: a fresh instance (empty cache, no
bundle) that then imports the parsed archive. -/
def Bundlee.load (parsed : Record) : Bundlee :=
  Bundlee.importLocal { loadedBundle := none, cache := [] } parsed

/-- The loop body of Bundlee.preloadCache: get every key in order,
aborting on the first failure. -/
def preloadGo (c : Codec) : Bundlee → List String → Except BundleeError Bundlee
  | st, [] => .ok st
  | st, k :: ks =>
    match Bundlee.get c st k with
    | (.error e, _) => .error e
    | (.ok _, st2) => preloadGo c st2 ks

/-- Bundlee.preloadCache of src/mod.ts: fail when no bundle is loaded,
else get every key of the loaded bundle. -/
def Bundlee.preloadCache (c : Codec) (b : Bundlee) : Except BundleeError Bundlee :=
  match b.loadedBundle with
  | none => .error .notLoaded
  | some lb => preloadGo c b (recKeys lb)

/-- A filesystem effect issued by Bundlee.restore: a recursive (hence
idempotent) directory creation, a file write of raw bytes, or a
timestamp update setting access and modification times (Deno.utime
takes seconds, hence rationals for the millisecond division). -/
inductive FsEffect where
  | mkdirRecursive (path : List String)
  | writeFile (path : List String) (content : List (Fin 256))
  | utime (path : List String) (atime mtime : ℚ)
deriving DecidableEq, Repr

/-- The effects of one iteration of the restore loop in src/mod.ts for
a key whose get produced dm: ensure the parent directory of target
joined with the key exists, write the text re-encoded as bytes, then
set both file times to lastModified divided by 1000. -/
def restoreEntryEffects (c : Codec) (target : List String) (key : String) (dm : Metadata) :
    List FsEffect :=
  let p := target ++ key.splitOn "/"
  [ .mkdirRecursive p.dropLast,
    .writeFile p (c.utf8encode dm.content),
    .utime p ((dm.lastModified : ℚ) / 1000) ((dm.lastModified : ℚ) / 1000) ]

/-- The loop of Bundlee.restore: for each key in order, get it (any
failure propagates) and issue the effects of that iteration. -/
def restoreGo (c : Codec) (target : List String) :
    Bundlee → List String → Except BundleeError (List FsEffect × Bundlee)
  | st, [] => .ok ([], st)
  | st, k :: ks =>
    match Bundlee.get c st k with
    | (.error e, _) => .error e
    | (.ok dm, st2) =>
      match restoreGo c target st2 ks with
      | .error e => .error e
      | .ok (effs, st3) => .ok (restoreEntryEffects c target k dm ++ effs, st3)

/-- Bundlee.restore of src/mod.ts: fail when no bundle is loaded, else
run the restore loop over every key of the loaded bundle. -/
def Bundlee.restore (c : Codec) (b : Bundlee) (target : List String) :
    Except BundleeError (List FsEffect × Bundlee) :=
  match b.loadedBundle with
  | none => .error .notLoaded
  | some lb => restoreGo c target b (recKeys lb)

/-- Byte to character, used by the executable witness codec. -/
def byteChar (b : Fin 256) : Char := Char.ofNat b.val

/-- Character to three base-256 digit bytes, used by the executable
witness codec. -/
def charBytes (ch : Char) : List (Fin 256) :=
  [⟨ch.toNat / 65536 % 256, by omega⟩, ⟨ch.toNat / 256 % 256, by omega⟩,
   ⟨ch.toNat % 256, by omega⟩]

/-- Inverse of charBytes on well-formed input: recombine each group of
three bytes into a character. -/
def bytesChars : List (Fin 256) → List Char
  | a :: b :: c :: rest => Char.ofNat (a.val * 65536 + b.val * 256 + c.val) :: bytesChars rest
  | _ => []

/-- An executable codec satisfying the platform round-trip contracts,
used to instantiate the hypotheses of the theorems below on concrete
inputs. -/
def wCodec : Codec where
  gzip := id
  gunzip := some
  b64encode bs := String.mk (bs.map byteChar)
  b64decode s := some (s.data.map (fun ch => ⟨ch.toNat % 256, by omega⟩))
  utf8encode s := s.data.flatMap charBytes
  utf8decode bs := String.mk (bytesChars bs)
  contentTypeOf _ := none

theorem char_toNat_lt (ch : Char) : ch.toNat < 1114112 := by
  rcases ch.valid with h | h
  · exact Nat.lt_trans h (by norm_num)
  · exact h.2

theorem toNat_byteChar (b : Fin 256) : (byteChar b).toNat = b.val := by
  have hv : b.val.isValidChar := Or.inl (Nat.lt_trans b.isLt (by norm_num))
  simp only [byteChar, Char.ofNat, hv, dif_pos, Char.ofNatAux, Char.toNat]
  rfl

theorem bytesChars_charBytes (l : List Char) :
    bytesChars (l.flatMap charBytes) = l := by
  induction l with
  | nil => rfl
  | cons ch rest ih =>
    have ht := char_toNat_lt ch
    simp only [List.flatMap_cons, charBytes, List.cons_append, List.nil_append, bytesChars, ih]
    congr 1
    have hsum : ch.toNat / 65536 % 256 * 65536 + ch.toNat / 256 % 256 * 256 + ch.toNat % 256 =
        ch.toNat := by omega
    rw [hsum, Char.ofNat_toNat]

theorem wCodec_lawful : wCodec.Lawful := by
  refine ⟨fun bs => rfl, fun bs => ?_, fun s => ?_⟩
  · show some ((bs.map byteChar).map (fun ch => (⟨ch.toNat % 256, by omega⟩ : Fin 256))) =
      some bs
    congr 1
    induction bs with
    | nil => rfl
    | cons b rest ih =>
      simp only [List.map_cons, ih]
      exact congrArg (fun x => x :: rest)
        (Fin.ext (by rw [toNat_byteChar]; exact Nat.mod_eq_of_lt b.isLt))
  · show String.mk (bytesChars (s.data.flatMap charBytes)) = s
    rw [bytesChars_charBytes]

theorem recLookup_recSet_self (r : Record) (k : String) (v : Metadata) :
    recLookup (recSet r k v) k = some v := by
  induction r with
  | nil => simp [recSet, recLookup]
  | cons kv rest ih =>
    by_cases h : kv.1 = k
    · simp [recSet, recLookup, h]
    · simp [recSet, recLookup, h, ih]

theorem recLookup_recSet_ne (r : Record) (k : String) (v : Metadata) (k2 : String)
    (h : k2 ≠ k) : recLookup (recSet r k v) k2 = recLookup r k2 := by
  have hne : ¬ (k = k2) := fun hh => h hh.symm
  induction r with
  | nil => simp [recSet, recLookup, hne]
  | cons kv rest ih =>
    by_cases hk : kv.1 = k
    · simp only [recSet, if_pos hk, recLookup]
      rw [if_neg hne, if_neg (by rw [hk]; exact hne)]
    · simp only [recSet, if_neg hk, recLookup, ih]

theorem recSet_ne_nil (r : Record) (k : String) (v : Metadata) :
    recSet r k v ≠ [] := by
  cases r with
  | nil => simp [recSet]
  | cons kv rest =>
    by_cases h : kv.1 = k <;> simp [recSet, h]

theorem foldl_ne_nil {α : Type} (g : Record → α → Record) (hg : ∀ r a, g r a ≠ [])
    (l : List α) (r : Record) (hr : r ≠ []) : l.foldl g r ≠ [] := by
  induction l generalizing r with
  | nil => exact hr
  | cons a as ih => exact ih (g r a) (hg r a)

theorem bundleFiles_ne_nil (c : Codec) (bp : List String) (fl : List FileRec)
    (h : fl ≠ []) : bundleFiles c bp fl ≠ [] := by
  unfold bundleFiles
  cases fl with
  | nil => exact absurd rfl h
  | cons f fs =>
    simp only [List.foldl_cons]
    exact foldl_ne_nil _ (fun r a => recSet_ne_nil r _ _) fs _ (recSet_ne_nil [] _ _)

/-- C7: has answers key membership in the currently loaded archive: it
returns true exactly when an archive is loaded and the path is one of
its keys, and false (never a failure) when no archive is loaded or the
key is absent.  The method performs no writes, so it is embedded as a
pure function of the holder state: repeated calls on an unchanged state
agree definitionally and leave the state untouched. -/
theorem C7_has_iff_key (b : Bundlee) (p : String) :
    Bundlee.has b p = true ↔ ∃ lb, b.loadedBundle = some lb ∧ (recLookup lb p).isSome := by
  cases hb : b.loadedBundle with
  | none => simp [Bundlee.has, hb]
  | some lb => simp [Bundlee.has, hb]

/-- C5: when the walker yields zero files, bundle fails with the
no-input-files error, and a successful bundle never returns an archive
with zero entries. -/
theorem C5_no_empty_archive (c : Codec) (basePath path : List String)
    (rootEntries : List FsEntry) (exts : Option (List String)) :
    (recursiveReaddir exts (basePath ++ path) rootEntries = .ok [] →
      Bundlee.bundle c basePath path rootEntries exts = .error .noInputFiles) ∧
    (∀ ar, Bundlee.bundle c basePath path rootEntries exts = .ok ar → ar ≠ []) := by
  constructor
  · intro hw
    simp [Bundlee.bundle, hw]
  · intro ar har
    cases hw : recursiveReaddir exts (basePath ++ path) rootEntries with
    | error e => simp [Bundlee.bundle, hw] at har
    | ok fl =>
      by_cases hl : fl.length = 0
      · simp [Bundlee.bundle, hw, hl] at har
      · simp only [Bundlee.bundle, hw, if_neg hl] at har
        injection har with har2
        rw [← har2]
        exact bundleFiles_ne_nil c basePath fl
          (fun hnil => hl (by rw [hnil]; rfl))

/-- C5 witness: bundling an empty directory fails with the
no-input-files error. -/
theorem C5_no_empty_archive_witness :
    Bundlee.bundle wCodec [] [] [] none = .error .noInputFiles :=
  (C5_no_empty_archive wCodec [] [] [] none).1 (by simp [recursiveReaddir])

/-- C2 counterexample: the claim says every load strategy clears the
decode cache, so that cache keys are always keys of the current
archive.  Starting from a freshly loaded single-entry archive, reading
the entry and then loading an empty archive through importLocal leaves
the old decoded entry in the cache even though the new archive has no
such key, and a subsequent get returns the stale entry. -/
theorem C2_cache_not_cleared_counterexample :
    (Bundlee.importLocal
        (Bundlee.get wCodec
          (Bundlee.load [("x", ⟨wCodec.b64encode (wCodec.gzip (wCodec.utf8encode "hi")),
            "text/plain", 5⟩)]) "x").2 []).cache =
      [("x", ⟨"hi", "text/plain", 5⟩)] ∧
    recLookup [] "x" = none ∧
    (Bundlee.get wCodec
        (Bundlee.importLocal
          (Bundlee.get wCodec
            (Bundlee.load [("x", ⟨wCodec.b64encode (wCodec.gzip (wCodec.utf8encode "hi")),
              "text/plain", 5⟩)]) "x").2 [])
        "x").1 = .ok ⟨"hi", "text/plain", 5⟩ := by
  refine ⟨?_, rfl, ?_⟩ <;> rfl

/-- C2 as amended: the three load strategies replace the loaded archive
with the parsed value but leave the decode cache unchanged rather than
clearing it, so stale entries of a previous archive can survive a
load. -/
theorem C2_load_preserves_cache (b : Bundlee) (t : ImportType) (statusOk : Bool)
    (parsed : Record) (b2 : Bundlee)
    (h : Bundlee.importBundle b t statusOk parsed = .ok b2) :
    b2.loadedBundle = some parsed ∧ b2.cache = b.cache := by
  rcases t with _ | _ | _
  · injection h with h2
    rw [← h2]
    exact ⟨rfl, rfl⟩
  · cases statusOk with
    | false =>
      exact absurd h (by simp [Bundlee.importBundle, Bundlee.importRemote])
    | true =>
      injection h with h2
      rw [← h2]
      exact ⟨rfl, rfl⟩
  · injection h with h2
    rw [← h2]
    exact ⟨rfl, rfl⟩

/-- C2 witness: a local load on a holder with a populated cache keeps
that cache verbatim. -/
theorem C2_load_preserves_cache_witness :
    (Bundlee.importLocal ⟨none, [("k", ⟨"t", "c", 1⟩)]⟩ []).loadedBundle = some [] ∧
    (Bundlee.importLocal ⟨none, [("k", ⟨"t", "c", 1⟩)]⟩ []).cache = [("k", ⟨"t", "c", 1⟩)] :=
  C2_load_preserves_cache ⟨none, [("k", ⟨"t", "c", 1⟩)]⟩ .local true [] _ rfl

/-- C6 counterexample: the claim says get on a loaded holder fails with
the not-found error for every path absent from the archive.  On a
reachable holder whose decode cache still holds a path that the
currently loaded (empty) archive lacks, get returns the stale cached
entry instead of failing. -/
theorem C6_stale_not_found_counterexample :
    recLookup [] "x" = none ∧
    (Bundlee.get wCodec ⟨some [], [("x", ⟨"hi", "text/plain", 5⟩)]⟩ "x").1 =
      .ok ⟨"hi", "text/plain", 5⟩ := ⟨rfl, rfl⟩

/-- C6 as amended: get, preloadCache and restore on a holder with no
archive loaded fail with the not-loaded error; on a holder with an
archive loaded, get fails with the not-found error for every path
absent from the archive, provided the path is not lingering in the
decode cache (a stale cached path is returned instead). -/
theorem C6_error_kinds (c : Codec) :
    (∀ cache p, Bundlee.get c ⟨none, cache⟩ p = (.error .notLoaded, ⟨none, cache⟩)) ∧
    (∀ cache, Bundlee.preloadCache c ⟨none, cache⟩ = .error .notLoaded) ∧
    (∀ cache target, Bundlee.restore c ⟨none, cache⟩ target = .error .notLoaded) ∧
    (∀ lb cache p, recLookup lb p = none → recLookup cache p = none →
      Bundlee.get c ⟨some lb, cache⟩ p = (.error .notFound, ⟨some lb, cache⟩)) := by
  refine ⟨fun cache p => rfl, fun cache => rfl, fun cache target => rfl, ?_⟩
  intro lb cache p hlb hcache
  simp [Bundlee.get, hlb, hcache]

/-- C6 witness: a concrete not-found failure on a loaded holder with an
empty cache. -/
theorem C6_error_kinds_witness :
    Bundlee.get wCodec ⟨some [("a", ⟨"c", "t", 0⟩)], []⟩ "x" =
      (.error .notFound, ⟨some [("a", ⟨"c", "t", 0⟩)], []⟩) :=
  (C6_error_kinds wCodec).2.2.2 [("a", ⟨"c", "t", 0⟩)] [] "x" rfl rfl

/-- C8: caching is memoization only: a successful get leaves the holder
in a state where getting the same path again returns the identical
decoded entry and the identical state, so repeated gets on an unchanged
loaded archive always return the same value. -/
theorem C8_get_memoized (c : Codec) (b b2 : Bundlee) (p : String) (m : Metadata)
    (h : Bundlee.get c b p = (.ok m, b2)) :
    Bundlee.get c b2 p = (.ok m, b2) := by
  cases hb : b.loadedBundle with
  | none =>
    simp [Bundlee.get, hb] at h
  | some lb =>
    cases hc : recLookup b.cache p with
    | some m0 =>
      simp only [Bundlee.get, hb, hc, Prod.mk.injEq, Except.ok.injEq] at h
      obtain ⟨h1, h2⟩ := h
      subst h1
      subst h2
      simp only [Bundlee.get, hb, hc]
    | none =>
      cases hlb : recLookup lb p with
      | none =>
        simp [Bundlee.get, hb, hc, hlb] at h
      | some md =>
        cases hd : decodeEntry c md with
        | none =>
          simp [Bundlee.get, hb, hc, hlb, hd] at h
        | some dm =>
          simp only [Bundlee.get, hb, hc, hlb, hd, Prod.mk.injEq, Except.ok.injEq] at h
          obtain ⟨h1, h2⟩ := h
          subst h1
          subst h2
          simp only [Bundlee.get, hb, recLookup_recSet_self]

/-- C8 witness: a get that hits the cache returns the cached entry and
leaves the state unchanged, so the theorem applies to it with itself as
the populating call. -/
theorem C8_get_memoized_witness :
    Bundlee.get wCodec ⟨some [("p", ⟨"e", "t", 0⟩)], [("p", ⟨"d", "t", 0⟩)]⟩ "p" =
      (.ok ⟨"d", "t", 0⟩, ⟨some [("p", ⟨"e", "t", 0⟩)], [("p", ⟨"d", "t", 0⟩)]⟩) :=
  C8_get_memoized wCodec ⟨some [("p", ⟨"e", "t", 0⟩)], [("p", ⟨"d", "t", 0⟩)]⟩
    ⟨some [("p", ⟨"e", "t", 0⟩)], [("p", ⟨"d", "t", 0⟩)]⟩ "p" ⟨"d", "t", 0⟩ rfl

/-- C10: get never mutates the loaded archive mapping, and the only
state it may change is the decode cache, which gains at most the single
entry keyed by the requested path: every other cache key reads exactly
as before, and any key present afterwards was present before or is the
requested path. -/
theorem C10_get_frame (c : Codec) (b : Bundlee) (p : String) :
    (Bundlee.get c b p).2.loadedBundle = b.loadedBundle ∧
    (∀ q, q ≠ p → recLookup (Bundlee.get c b p).2.cache q = recLookup b.cache q) ∧
    (∀ q, (recLookup (Bundlee.get c b p).2.cache q).isSome →
      (recLookup b.cache q).isSome ∨ q = p) := by
  cases hb : b.loadedBundle with
  | none =>
    have hget : Bundlee.get c b p = (.error .notLoaded, b) := by
      simp [Bundlee.get, hb]
    rw [hget]
    exact ⟨hb, fun q _ => rfl, fun q hq => Or.inl hq⟩
  | some lb =>
    cases hc : recLookup b.cache p with
    | some m =>
      have hget : Bundlee.get c b p = (.ok m, b) := by
        simp [Bundlee.get, hb, hc]
      rw [hget]
      exact ⟨hb, fun q _ => rfl, fun q hq => Or.inl hq⟩
    | none =>
      cases hlb : recLookup lb p with
      | none =>
        have hget : Bundlee.get c b p = (.error .notFound, b) := by
          simp [Bundlee.get, hb, hc, hlb]
        rw [hget]
        exact ⟨hb, fun q _ => rfl, fun q hq => Or.inl hq⟩
      | some md =>
        cases hd : decodeEntry c md with
        | none =>
          have hget : Bundlee.get c b p = (.error .decodeFailed, b) := by
            simp [Bundlee.get, hb, hc, hlb, hd]
          rw [hget]
          exact ⟨hb, fun q _ => rfl, fun q hq => Or.inl hq⟩
        | some dm =>
          have hget : Bundlee.get c b p = (.ok dm, { b with cache := recSet b.cache p dm }) := by
            simp [Bundlee.get, hb, hc, hlb, hd]
          rw [hget]
          refine ⟨hb, ?_, ?_⟩
          · intro q hq
            exact recLookup_recSet_ne _ _ _ _ hq
          · intro q hsome
            by_cases hqp : q = p
            · exact Or.inr hqp
            · rw [show ({ b with cache := recSet b.cache p dm } : Bundlee).cache =
                recSet b.cache p dm from rfl, recLookup_recSet_ne _ _ _ _ hqp] at hsome
              exact Or.inl hsome

/-- C10 witness: a concrete frame check: after getting one path, an
unrelated cache key reads as before. -/
theorem C10_get_frame_witness :
    recLookup (Bundlee.get wCodec ⟨none, []⟩ "p").2.cache "q" =
      recLookup (⟨none, []⟩ : Bundlee).cache "q" :=
  (C10_get_frame wCodec ⟨none, []⟩ "p").2.1 "q" (by decide)

theorem walk_eq_collect (exts : Option (List String)) :
    (path : List String) → (entries : List FsEntry) → hasDenied entries = false →
    recursiveReaddir exts path entries = .ok (collectFiles exts path entries)
  | _, [], _ => by simp [recursiveReaddir, collectFiles]
  | path, FsEntry.file n ct mt :: rest, h => by
    have ih := walk_eq_collect exts path rest (by simpa [hasDenied] using h)
    simp [recursiveReaddir, collectFiles, ih]
  | path, FsEntry.dir n es :: rest, h => by
    have h2 : hasDenied es = false ∧ hasDenied rest = false := by
      simpa [hasDenied] using h
    have ih1 := walk_eq_collect exts (path ++ [n]) es h2.1
    have ih2 := walk_eq_collect exts path rest h2.2
    simp [recursiveReaddir, collectFiles, ih1, ih2]
  | path, FsEntry.symlink n :: rest, h => by
    have ih := walk_eq_collect exts path rest (by simpa [hasDenied] using h)
    simpa [recursiveReaddir, collectFiles] using ih
  | path, FsEntry.special n :: rest, h => by
    have ih := walk_eq_collect exts path rest (by simpa [hasDenied] using h)
    simpa [recursiveReaddir, collectFiles] using ih
  | path, FsEntry.deniedDir n :: rest, h => by
    simp [hasDenied] at h

theorem walk_denied (exts : Option (List String)) :
    (path : List String) → (entries : List FsEntry) → hasDenied entries = true →
    recursiveReaddir exts path entries = .error (.ioError "PermissionDenied")
  | _, [], h => by simp [hasDenied] at h
  | path, FsEntry.file n ct mt :: rest, h => by
    have ih := walk_denied exts path rest (by simpa [hasDenied] using h)
    simp [recursiveReaddir, ih]
  | path, FsEntry.dir n es :: rest, h => by
    cases he : hasDenied es with
    | true =>
      have ih := walk_denied exts (path ++ [n]) es he
      simp [recursiveReaddir, ih]
    | false =>
      have hrest : hasDenied rest = true := by
        have h2 := h
        simp [hasDenied, he] at h2
        exact h2
      have hok := walk_eq_collect exts (path ++ [n]) es he
      have ih := walk_denied exts path rest hrest
      simp [recursiveReaddir, hok, ih]
  | path, FsEntry.symlink n :: rest, h => by
    have ih := walk_denied exts path rest (by simpa [hasDenied] using h)
    simpa [recursiveReaddir] using ih
  | path, FsEntry.special n :: rest, h => by
    have ih := walk_denied exts path rest (by simpa [hasDenied] using h)
    simpa [recursiveReaddir] using ih
  | _, FsEntry.deniedDir n :: _, _ => by
    simp [recursiveReaddir]

/-- C3 counterexample: the claim says a tree containing a symlink or a
special file makes the walker fail with an I/O error and that no such
entry is silently skipped.  On a concrete listing holding a symlink
(respectively a special file) next to a regular file, the walker
succeeds and yields only the regular file: the entry is silently
skipped, no error is raised. -/
theorem C3_symlink_skipped_counterexample :
    recursiveReaddir none [] [FsEntry.symlink "s", FsEntry.file "a.txt" [] none] =
      .ok [⟨["a.txt"], [], none⟩] ∧
    recursiveReaddir none [] [FsEntry.special "sock", FsEntry.file "a.txt" [] none] =
      .ok [⟨["a.txt"], [], none⟩] := by
  constructor <;> simp [recursiveReaddir, extOk]

/-- C3 as amended: entries that are neither regular files nor
directories (symlinks, special files) are silently skipped rather than
failing the walk; the walker fails, with the propagated I/O error,
exactly when some directory read in the tree fails (for example with a
permission error). -/
theorem C3_walker_error_iff_denied (exts : Option (List String)) (path : List String)
    (entries : List FsEntry) :
    (∃ fs, recursiveReaddir exts path entries = .ok fs) ↔ hasDenied entries = false := by
  constructor
  · rintro ⟨fs, hfs⟩
    by_contra hny
    have ht : hasDenied entries = true := by
      cases hd : hasDenied entries with
      | true => rfl
      | false => exact absurd hd hny
    rw [walk_denied exts path entries ht] at hfs
    exact absurd hfs (by simp)
  · intro h
    exact ⟨collectFiles exts path entries, walk_eq_collect exts path entries h⟩

/-- The extension of a file name as the claim reads it: the substring
after the last dot, with the leading dot restored; none when the name
has no dot. -/
def claimedExt (name : String) : Option String :=
  match lastIdxOf '.' name.data with
  | none => none
  | some d => some (String.mk ('.' :: name.data.drop (d + 1)))

/-- C4 counterexample: the claim says a file is yielded precisely when
the substring after the last dot of its name (with its leading dot) is
in the allow-list.  For a file named dot-txt, that reading gives the
extension dot-txt, which is in the supplied list, yet the walker yields
nothing: the std path parser assigns a leading-dot file name an empty
extension, which fails the membership test. -/
theorem C4_dotfile_counterexample :
    claimedExt ".txt" = some ".txt" ∧
    parseExt ".txt" = "" ∧
    recursiveReaddir (some [".txt"]) [] [FsEntry.file ".txt" [] none] = .ok [] := by
  refine ⟨rfl, rfl, ?_⟩
  have hpe : parseExt ".txt" = "" := rfl
  simp [recursiveReaddir, extOk, hpe]

/-- C4 as amended: over any tree whose directory reads all succeed, the
walker yields exactly the regular files whose parsed extension passes
the filter: with an allow-list, a file is yielded precisely when the
extension computed as the std path parser does (empty for names without
a dot, for leading-dot names and for the dot-dot name; otherwise the
substring from the last dot inclusive) is a member of the list; with no
allow-list every regular file is yielded. -/
theorem C4_walker_filter (exts : Option (List String)) (path : List String)
    (entries : List FsEntry) (h : hasDenied entries = false) :
    recursiveReaddir exts path entries = .ok (collectFiles exts path entries) :=
  walk_eq_collect exts path entries h

/-- C4 witness: a concrete two-file listing filtered to the dot-txt
extension. -/
theorem C4_walker_filter_witness :
    recursiveReaddir (some [".txt"]) []
        [FsEntry.file "a.txt" [] none, FsEntry.file "b.css" [] none] =
      .ok (collectFiles (some [".txt"]) []
        [FsEntry.file "a.txt" [] none, FsEntry.file "b.css" [] none]) :=
  C4_walker_filter (some [".txt"]) []
    [FsEntry.file "a.txt" [] none, FsEntry.file "b.css" [] none] (by simp [hasDenied])

theorem get_fresh_single (c : Codec) (k : String) (md dm : Metadata)
    (hd : decodeEntry c md = some dm) :
    Bundlee.get c (Bundlee.load [(k, md)]) k = (.ok dm, ⟨some [(k, md)], [(k, dm)]⟩) := by
  simp [Bundlee.get, Bundlee.load, Bundlee.importLocal, recLookup, recSet, hd]

/-- C1: the read direction of the entry codec inverts the build
direction through the whole pipeline: bundling a file whose bytes are
the UTF-8 encoding of a text (the empty text included) and loading the
resulting archive into a fresh holder makes get return, at the key
relative to the base path, an entry whose content field is exactly the
original text. -/
theorem C1_roundtrip (c : Codec) (hc : c.Lawful) (bp rp : List String)
    (name t : String) (mt : Option Nat) (ar : Record)
    (har : Bundlee.bundle c bp rp [FsEntry.file name (c.utf8encode t) mt] none = .ok ar) :
    ∃ m b2, Bundlee.get c (Bundlee.load ar) (pathString (rp ++ [name])) = (.ok m, b2) ∧
      m.content = t := by
  obtain ⟨hgz, hb64, hutf⟩ := hc
  have hw : recursiveReaddir none (bp ++ rp) [FsEntry.file name (c.utf8encode t) mt] =
      .ok [⟨(bp ++ rp) ++ [name], c.utf8encode t, mt⟩] := by
    rw [walk_eq_collect none (bp ++ rp) _ (by simp [hasDenied])]
    simp [collectFiles, extOk]
  simp only [Bundlee.bundle, hw, List.length_cons, List.length_nil] at har
  rw [if_neg (by omega)] at har
  injection har with har2
  subst har2
  have hkey : ((bp ++ rp) ++ [name]).drop bp.length = rp ++ [name] := by
    rw [List.append_assoc, List.drop_left]
  have hbf : bundleFiles c bp [⟨(bp ++ rp) ++ [name], c.utf8encode t, mt⟩] =
      [(pathString (rp ++ [name]),
        ⟨c.b64encode (c.gzip (c.utf8encode t)),
         getContentType c (pathString ((bp ++ rp) ++ [name])), mt.getD 0⟩)] := by
    simp [bundleFiles, recSet, hkey]
  rw [hbf]
  have hd : decodeEntry c
      ⟨c.b64encode (c.gzip (c.utf8encode t)),
       getContentType c (pathString ((bp ++ rp) ++ [name])), mt.getD 0⟩ =
      some ⟨t, getContentType c (pathString ((bp ++ rp) ++ [name])), mt.getD 0⟩ := by
    simp [decodeEntry, hb64, hgz, hutf]
  exact ⟨_, _, get_fresh_single c _ _ _ hd, rfl⟩

/-- C1 witness: bundling a single empty file (the empty string is valid
UTF-8 text) under a concrete base path and reading it back through a
loaded fresh holder returns the empty text. -/
theorem C1_roundtrip_witness :
    ∃ m b2, Bundlee.get wCodec
        (Bundlee.load [(pathString (["sub"] ++ ["a.txt"]),
          ⟨"", "application/octet-stream", 7⟩)])
        (pathString (["sub"] ++ ["a.txt"])) = (.ok m, b2) ∧
      m.content = "" :=
  C1_roundtrip wCodec wCodec_lawful ["base"] ["sub"] "a.txt" "" (some 7)
    [(pathString (["sub"] ++ ["a.txt"]), ⟨"", "application/octet-stream", 7⟩)]
    (by
      have h1 : recursiveReaddir none ["base", "sub"]
          [FsEntry.file "a.txt" ([] : List (Fin 256)) (some 7)] =
          .ok [⟨["base", "sub", "a.txt"], [], some 7⟩] := by
        simp [recursiveReaddir, extOk]
      rw [show (wCodec.utf8encode "" : List (Fin 256)) = [] from rfl]
      simp [Bundlee.bundle, h1, bundleFiles, recSet, pathString, getContentType, wCodec])

/-- Consistency of a decode cache with a loaded archive: every cached
entry is the decode of the archive entry at the same key.  It holds for
the empty cache of a freshly loaded holder and is preserved by get. -/
def CacheConsistent (c : Codec) (lb cache : Record) : Prop :=
  ∀ k m, recLookup cache k = some m →
    ∃ md, recLookup lb k = some md ∧ decodeEntry c md = some m

theorem cacheConsistent_nil (c : Codec) (lb : Record) : CacheConsistent c lb [] := by
  intro k m hm
  simp [recLookup] at hm

theorem get_consistent (c : Codec) (lb cache : Record) (k : String) (md dm : Metadata)
    (hcc : CacheConsistent c lb cache) (hk : recLookup lb k = some md)
    (hd : decodeEntry c md = some dm) :
    ∃ cache2, Bundlee.get c ⟨some lb, cache⟩ k = (.ok dm, ⟨some lb, cache2⟩) ∧
      CacheConsistent c lb cache2 := by
  cases hc : recLookup cache k with
  | some m =>
    obtain ⟨md2, hk2, hd2⟩ := hcc k m hc
    rw [hk] at hk2
    injection hk2 with he
    subst he
    rw [hd] at hd2
    injection hd2 with he2
    subst he2
    refine ⟨cache, ?_, hcc⟩
    simp [Bundlee.get, hc]
  | none =>
    refine ⟨recSet cache k dm, ?_, ?_⟩
    · simp [Bundlee.get, hc, hk, hd]
    · intro k2 m2 hm2
      by_cases hkk : k2 = k
      · subst hkk
        rw [recLookup_recSet_self] at hm2
        injection hm2 with he
        subst he
        exact ⟨md, hk, hd⟩
      · rw [recLookup_recSet_ne _ _ _ _ hkk] at hm2
        exact hcc k2 m2 hm2

/-- The filesystem effects the restore loop issues for one archive key:
none when the key is absent or undecodable (those cases abort the loop
instead), otherwise the mkdir, write and utime of that iteration on the
decoded entry. -/
def entryEffects (c : Codec) (target : List String) (lb : Record) (k : String) :
    List FsEffect :=
  match recLookup lb k with
  | none => []
  | some md =>
    match decodeEntry c md with
    | none => []
    | some dm => restoreEntryEffects c target k dm

theorem restoreGo_spec (c : Codec) (target : List String) (lb : Record)
    (ks : List String) :
    ∀ cache : Record, CacheConsistent c lb cache →
    (∀ k ∈ ks, ∃ md dm, recLookup lb k = some md ∧ decodeEntry c md = some dm) →
    ∃ b2, restoreGo c target ⟨some lb, cache⟩ ks =
      .ok (ks.flatMap (entryEffects c target lb), b2) := by
  induction ks with
  | nil =>
    intro cache _ _
    exact ⟨⟨some lb, cache⟩, by simp [restoreGo]⟩
  | cons k ks ih =>
    intro cache hcc hdec
    obtain ⟨md, dm, hk, hd⟩ := hdec k (List.mem_cons_self k ks)
    obtain ⟨cache2, hget, hcc2⟩ := get_consistent c lb cache k md dm hcc hk hd
    obtain ⟨b2, hrest⟩ := ih cache2 hcc2 (fun k2 hk2 => hdec k2 (List.mem_cons_of_mem k hk2))
    refine ⟨b2, ?_⟩
    simp [restoreGo, hget, hrest, entryEffects, hk, hd]

/-- C9: on a holder whose decode cache agrees with the loaded archive
(in particular a freshly loaded one) and whose entries all decode,
restore succeeds and issues, for every key of the archive in order, the
three effects of that key: a recursive (idempotent) creation of the
parent directory of the target joined with the key, a write of the
decoded text re-encoded as bytes at that path, and a timestamp update
setting access and modification times to lastModified milliseconds
divided by 1000. -/
theorem C9_restore_effects (c : Codec) (b : Bundlee) (target : List String) (lb : Record)
    (hlb : b.loadedBundle = some lb) (hcc : CacheConsistent c lb b.cache)
    (hdec : ∀ k ∈ recKeys lb, ∃ md dm, recLookup lb k = some md ∧ decodeEntry c md = some dm) :
    ∃ b2, Bundlee.restore c b target =
      .ok ((recKeys lb).flatMap (entryEffects c target lb), b2) := by
  obtain ⟨olb, cache⟩ := b
  simp only at hlb hcc
  subst hlb
  obtain ⟨b2, h⟩ := restoreGo_spec c target lb (recKeys lb) cache hcc hdec
  refine ⟨b2, ?_⟩
  simp only [Bundlee.restore]
  exact h

/-- C9 witness: restoring a freshly loaded single-entry archive whose
stored content is the encoding of the empty text issues the mkdir,
write and utime effects for its key. -/
theorem C9_restore_effects_witness :
    ∃ b2, Bundlee.restore wCodec
        ⟨some [("a/b.txt", ⟨"", "text/plain", 1500⟩)], []⟩ ["out"] =
      .ok ((recKeys [("a/b.txt", ⟨"", "text/plain", 1500⟩)]).flatMap
        (entryEffects wCodec ["out"] [("a/b.txt", ⟨"", "text/plain", 1500⟩)]), b2) :=
  C9_restore_effects wCodec ⟨some [("a/b.txt", ⟨"", "text/plain", 1500⟩)], []⟩ ["out"]
    [("a/b.txt", ⟨"", "text/plain", 1500⟩)] rfl
    (cacheConsistent_nil wCodec [("a/b.txt", ⟨"", "text/plain", 1500⟩)])
    (fun k hk => by
      simp [recKeys] at hk
      subst hk
      exact ⟨⟨"", "text/plain", 1500⟩, ⟨"", "text/plain", 1500⟩, rfl, rfl⟩)
